import Mathlib

/-!
Verification of the event-driven observability layer of the `meja` MongoDB
GUI client (Rust, Tauri).  The repository sources available here are
`src-tauri/src/cmd.rs` (the Tauri command layer / Query Facade) and
`src-tauri/src/lib.rs` (wiring).  The aggregator module `mongodb_events.rs`
and the model module `model.rs` are referenced by `cmd.rs` but their code is
not part of the provided sources, so those aggregators are modelled from the
specification where needed; the command layer itself is embedded from
`cmd.rs` directly.

All machine integers are modelled as `Nat`/`Int` with explicit wrapping where
the Rust code performs a wrapping cast.
-/

namespace Meja

/-- Modelled from the spec: `FinishedCommandInfo` from the missing
`mongodb_events.rs` — the derived, immutable record produced once a command
completes: command name, duration, timestamp, success flag (spec §3). -/
structure FinishedCommandInfo where
  name : String
  duration : Nat
  timestamp : Nat
  success : Bool
deriving DecidableEq, Repr

/-- Modelled from the spec: the ranking order of the top-K slowest list
(spec §3): descending by duration, ties broken by earlier timestamp.
`cmdAhead a b` means an already-retained entry `a` stays ahead of a newly
inserted entry `b`; on a full tie the retained (first-seen) entry wins. -/
def cmdAhead (a b : FinishedCommandInfo) : Bool :=
  decide (b.duration < a.duration ∨ (a.duration = b.duration ∧ a.timestamp ≤ b.timestamp))

/-- Modelled from the spec: insertion into the descending-ordered slowest
list, keeping first-seen entries ahead on ties (spec §3). -/
def insertCmd (c : FinishedCommandInfo) : List FinishedCommandInfo → List FinishedCommandInfo
  | [] => [c]
  | x :: xs => if cmdAhead x c then x :: insertCmd c xs else c :: x :: xs

/-- Modelled from the spec: `record(finished_command)` of the slowest-commands
ranking in the missing `mongodb_events.rs` — insert into the bounded top-K
structure, discarding the current minimum once the structure is full and a
larger sample arrives (spec §3, §4.4). -/
def recordSlowest (K : Nat) (st : List FinishedCommandInfo)
    (c : FinishedCommandInfo) : List FinishedCommandInfo :=
  List.take K (insertCmd c st)

/-- Modelled from the spec: `get_n_slowest_commands(count)` of the missing
`mongodb_events.rs`, exposed by `mongodb_n_slowest_commands` in `cmd.rs`
(lines 119–123) — returns up to `count` entries sorted descending by
duration (spec §4.4). -/
def get_n_slowest_commands (count : Nat) (st : List FinishedCommandInfo) :
    List FinishedCommandInfo :=
  List.take count st

/-- Full insertion sort of all observed finished commands by the ranking
order: the mathematical description of "the K globally slowest" is
`List.take K` of this. -/
def sortCmds (l : List FinishedCommandInfo) : List FinishedCommandInfo :=
  List.foldl (fun st c => insertCmd c st) [] l

/-- Timestamps are nondecreasing in arrival order (finished commands are
stamped as they complete). -/
def timestampsMonoB : List FinishedCommandInfo → Bool
  | [] => true
  | [_] => true
  | a :: b :: rest => a.timestamp ≤ b.timestamp && timestampsMonoB (b :: rest)

def TimestampsMono (l : List FinishedCommandInfo) : Prop :=
  timestampsMonoB l = true

instance : DecidablePred TimestampsMono := fun l =>
  inferInstanceAs (Decidable (timestampsMonoB l = true))

lemma take_insertCmd_take (K : Nat) (c : FinishedCommandInfo)
    (l : List FinishedCommandInfo) :
    List.take K (insertCmd c (List.take K l)) = List.take K (insertCmd c l) := by
  induction l generalizing K with
  | nil => simp
  | cons x xs ih =>
    cases K with
    | zero => simp
    | succ K =>
      by_cases h : cmdAhead x c
      · simp only [List.take_succ_cons, insertCmd, h, if_true, ih]
      · simp only [List.take_succ_cons, insertCmd, h, Bool.false_eq_true, if_false]
        congr 1
        cases K with
        | zero => simp
        | succ m =>
          simp only [List.take_succ_cons, List.take_take]
          rw [Nat.min_eq_left (Nat.le_succ m)]

lemma foldl_recordSlowest_eq (K : Nat) (l : List FinishedCommandInfo) :
    ∀ st, List.foldl (recordSlowest K) (List.take K st) l =
      List.take K (List.foldl (fun st c => insertCmd c st) st l) := by
  induction l with
  | nil => intro st; simp
  | cons c cs ih =>
    intro st
    simp only [List.foldl_cons, recordSlowest, take_insertCmd_take]
    exact ih (insertCmd c st)

lemma recordSlowest_state (K : Nat) (l : List FinishedCommandInfo) :
    List.foldl (recordSlowest K) [] l = List.take K (sortCmds l) := by
  have h := foldl_recordSlowest_eq K l []
  simpa [sortCmds] using h

lemma cmdAhead_total (a b : FinishedCommandInfo) :
    cmdAhead a b = false → cmdAhead b a = true := by
  simp only [cmdAhead, decide_eq_false_iff_not, decide_eq_true_eq]
  intro h
  push_neg at h
  rcases Nat.lt_or_ge a.duration b.duration with hlt | hge
  · exact Or.inl hlt
  · have heq : a.duration = b.duration := le_antisymm h.1 hge
    exact Or.inr ⟨heq.symm, Nat.le_of_lt (h.2 heq)⟩

lemma cmdAhead_trans (a b c : FinishedCommandInfo) :
    cmdAhead a b = true → cmdAhead b c = true → cmdAhead a c = true := by
  simp only [cmdAhead, decide_eq_true_eq]
  intro hab hbc
  rcases hab with h1 | ⟨h1, h1'⟩ <;> rcases hbc with h2 | ⟨h2, h2'⟩
  · exact Or.inl (lt_trans h2 h1)
  · exact Or.inl (h2 ▸ h1)
  · exact Or.inl (h1 ▸ h2)
  · exact Or.inr ⟨h1.trans h2, le_trans h1' h2'⟩

lemma mem_insertCmd {y c : FinishedCommandInfo} {l : List FinishedCommandInfo}
    (h : y ∈ insertCmd c l) : y = c ∨ y ∈ l := by
  induction l with
  | nil => simpa [insertCmd] using h
  | cons x xs ih =>
    by_cases hx : cmdAhead x c
    · simp only [insertCmd, hx, if_true, List.mem_cons] at h
      rcases h with h | h
      · exact Or.inr (by simp [h])
      · rcases ih h with h' | h'
        · exact Or.inl h'
        · exact Or.inr (List.mem_cons_of_mem x h')
    · simp only [insertCmd, hx, Bool.false_eq_true, if_false, List.mem_cons] at h
      rcases h with h | h
      · exact Or.inl h
      · exact Or.inr (List.mem_cons.mpr h)

lemma pairwise_insertCmd (c : FinishedCommandInfo) (l : List FinishedCommandInfo)
    (h : List.Pairwise (fun a b => cmdAhead a b = true) l) :
    List.Pairwise (fun a b => cmdAhead a b = true) (insertCmd c l) := by
  induction l with
  | nil => simp [insertCmd]
  | cons x xs ih =>
    rcases List.pairwise_cons.mp h with ⟨hx, hxs⟩
    by_cases hc : cmdAhead x c
    · simp only [insertCmd, hc, if_true]
      refine List.pairwise_cons.mpr ⟨?_, ih hxs⟩
      intro y hy
      rcases mem_insertCmd hy with rfl | hy'
      · exact hc
      · exact hx y hy'
    · simp only [insertCmd, hc, Bool.false_eq_true, if_false]
      have hcx : cmdAhead c x = true := cmdAhead_total x c (by simpa using hc)
      refine List.pairwise_cons.mpr ⟨?_, h⟩
      intro y hy
      rcases List.mem_cons.mp hy with rfl | hy'
      · exact hcx
      · exact cmdAhead_trans c x y hcx (hx y hy')

lemma sortCmds_sorted (l : List FinishedCommandInfo) :
    List.Pairwise (fun a b => cmdAhead a b = true) (sortCmds l) := by
  have key : ∀ st, List.Pairwise (fun a b => cmdAhead a b = true) st →
      List.Pairwise (fun a b => cmdAhead a b = true)
        (List.foldl (fun st c => insertCmd c st) st l) := by
    induction l with
    | nil => intro st hst; simpa using hst
    | cons c cs ih =>
      intro st hst
      simpa using ih (insertCmd c st) (pairwise_insertCmd c st hst)
  simpa [sortCmds] using key [] (by simp)

/-- C1: For every sequence of recorded finished commands and every requested
count, `get_n_slowest_commands(count)` (exposed as
`mongodb_n_slowest_commands`) returns up to `count` entries sorted descending
by duration, drawn from the K globally slowest commands observed, with ties
on equal duration broken in favor of the earlier (first-seen) timestamp: the
result is exactly the first `count` of the first `K` entries of the full
ranking of all observed commands by (duration descending, timestamp
ascending). -/
theorem c1_n_slowest_commands (K count : Nat) (inputs : List FinishedCommandInfo)
    (hts : TimestampsMono inputs) :
    get_n_slowest_commands count (List.foldl (recordSlowest K) [] inputs) =
        List.take count (List.take K (sortCmds inputs)) ∧
    List.Pairwise (fun a b => b.duration ≤ a.duration)
        (get_n_slowest_commands count (List.foldl (recordSlowest K) [] inputs)) ∧
    List.Pairwise (fun a b => a.duration = b.duration → a.timestamp ≤ b.timestamp)
        (get_n_slowest_commands count (List.foldl (recordSlowest K) [] inputs)) ∧
    (get_n_slowest_commands count (List.foldl (recordSlowest K) [] inputs)).length
        ≤ count := by
  have hst : List.foldl (recordSlowest K) [] inputs = List.take K (sortCmds inputs) :=
    recordSlowest_state K inputs
  have hsub : List.Sublist
      (get_n_slowest_commands count (List.foldl (recordSlowest K) [] inputs))
      (sortCmds inputs) := by
    rw [hst, get_n_slowest_commands]
    exact (List.take_sublist _ _).trans (List.take_sublist _ _)
  have hpw := (sortCmds_sorted inputs).sublist hsub
  refine ⟨by rw [hst, get_n_slowest_commands], ?_, ?_, ?_⟩
  · refine hpw.imp ?_
    intro a b hab
    rcases (by simpa [cmdAhead] using hab :
        b.duration < a.duration ∨ (a.duration = b.duration ∧ a.timestamp ≤ b.timestamp)) with
      h | ⟨h, _⟩
    · exact Nat.le_of_lt h
    · exact Nat.le_of_eq h.symm
  · refine hpw.imp ?_
    intro a b hab heq
    rcases (by simpa [cmdAhead] using hab :
        b.duration < a.duration ∨ (a.duration = b.duration ∧ a.timestamp ≤ b.timestamp)) with
      h | ⟨_, h⟩
    · omega
    · exact h
  · exact List.length_take_le count _

/-- The spec's concrete top-K example: durations [50,10,90,30,95,20] recorded
in that order, timestamped in arrival order. -/
def exC1 : List FinishedCommandInfo :=
  [⟨"find", 50, 0, true⟩, ⟨"find", 10, 1, true⟩, ⟨"find", 90, 2, true⟩,
   ⟨"find", 30, 3, true⟩, ⟨"find", 95, 4, true⟩, ⟨"find", 20, 5, true⟩]

/-- Witness for C1 at the spec's concrete example: with capacity 3 and
durations [50,10,90,30,95,20], the returned durations are [95,90,50]. -/
theorem c1_n_slowest_commands_witness :
    TimestampsMono exC1 ∧
    get_n_slowest_commands 3 (List.foldl (recordSlowest 3) [] exC1) =
      List.take 3 (List.take 3 (sortCmds exC1)) ∧
    (get_n_slowest_commands 3 (List.foldl (recordSlowest 3) [] exC1)).map
      FinishedCommandInfo.duration = [95, 90, 50] :=
  ⟨by decide, (c1_n_slowest_commands 3 3 exC1 (by decide)).1, by rfl⟩

/-- Modelled from the spec: the per-second histogram of the Command Metrics
Aggregator in the missing `mongodb_events.rs` (spec §3, §4.4).  State is the
bounded ring of buckets `(second index, command count)`, oldest first, with
ring capacity `M`.  The spec leaves the derived throughput metric
undetermined (§9 open question), so buckets carry only the second index and
the count.  On a completion in second `sec`: if the most recent bucket
matches, increment it in place; otherwise append a new bucket, evicting the
oldest if the ring is full. -/
def recordPerSec (M : Nat) (st : List (Nat × Nat)) (sec : Nat) : List (Nat × Nat) :=
  match st.getLast? with
  | some b =>
    if b.1 = sec then st.dropLast ++ [(b.1, b.2 + 1)]
    else if st.length < M then st ++ [(sec, 1)]
    else st.drop 1 ++ [(sec, 1)]
  | none => [(sec, 1)]

/-- Modelled from the spec: `get_commands_statistics_per_sec(count)` of the
missing `mongodb_events.rs`, exposed by
`mongodb_get_commands_statistics_per_sec` in `cmd.rs` (lines 113–117) —
returns the most recent `count` buckets in chronological order, oldest first
(spec §4.4). -/
def get_commands_statistics_per_sec (count : Nat) (st : List (Nat × Nat)) :
    List (Nat × Nat) :=
  st.drop (st.length - count)

/-- Completion seconds arrive in nondecreasing order (roughly monotonic
process-clock delivery, spec §5). -/
def secsMonoB : List Nat → Bool
  | [] => true
  | [_] => true
  | a :: b :: rest => a ≤ b && secsMonoB (b :: rest)

lemma recordPerSec_step (M sec : Nat) (st : List (Nat × Nat))
    (hc : List.Chain' (· < ·) (st.map Prod.fst))
    (hlast : ∀ b ∈ st.getLast?, b.1 ≤ sec) :
    List.Chain' (· < ·) ((recordPerSec M st sec).map Prod.fst) ∧
      ∀ b ∈ (recordPerSec M st sec).getLast?, b.1 = sec := by
  match hst : st.getLast? with
  | none =>
    have : st = [] := List.getLast?_eq_none_iff.mp hst
    subst this
    simp [recordPerSec]
  | some b =>
    have hb : b.1 ≤ sec := hlast b (by rw [hst]; rfl)
    have hdecomp : st.dropLast ++ [b] = st := List.dropLast_append_getLast? b hst
    have hkl : (st.map Prod.fst).getLast? = some b.1 := by
      rw [List.getLast?_map, hst]; rfl
    by_cases heq : b.1 = sec
    · simp only [recordPerSec, hst]
      rw [if_pos heq]
      have hkeys : (st.dropLast ++ [(b.1, b.2 + 1)]).map Prod.fst = st.map Prod.fst := by
        conv_rhs => rw [← hdecomp]
        simp
      refine ⟨by rw [hkeys]; exact hc, ?_⟩
      intro x hx
      rw [List.getLast?_concat] at hx
      simp only [Option.mem_def, Option.some.injEq] at hx
      subst hx
      exact heq
    · have hlt : b.1 < sec := Nat.lt_of_le_of_ne hb heq
      simp only [recordPerSec, hst]
      rw [if_neg heq]
      by_cases hlen : st.length < M
      · rw [if_pos hlen]
        refine ⟨?_, ?_⟩
        · rw [List.map_append]
          refine List.Chain'.append hc (by simp) ?_
          intro x hx y hy
          rw [hkl] at hx
          simp only [Option.mem_def, Option.some.injEq] at hx
          simp only [List.map_cons, List.map_nil, List.head?_cons, Option.mem_def,
            Option.some.injEq] at hy
          omega
        · intro x hx
          rw [List.getLast?_concat] at hx
          simp only [Option.mem_def, Option.some.injEq] at hx
          subst hx
          rfl
      · rw [if_neg hlen]
        refine ⟨?_, ?_⟩
        · rw [List.map_append, List.map_drop Prod.fst st 1]
          refine List.Chain'.append (hc.drop 1) (by simp) ?_
          intro x hx y hy
          simp only [List.map_cons, List.map_nil, List.head?_cons, Option.mem_def,
            Option.some.injEq] at hy
          have hx' : ((st.map Prod.fst).drop 1).getLast? = some x := hx
          have hxb : b.1 = x := by
            cases hmf : st.map Prod.fst with
            | nil => rw [hmf] at hx'; simp at hx'
            | cons a rest =>
              rw [hmf] at hx' hkl
              simp only [List.drop_succ_cons, List.drop_zero] at hx'
              cases rest with
              | nil => simp at hx'
              | cons a' rest' =>
                rw [List.getLast?_cons_cons] at hkl
                rw [hx'] at hkl
                exact (by simpa using hkl : x = b.1).symm
          omega
        · intro x hx
          rw [List.getLast?_concat] at hx
          simp only [Option.mem_def, Option.some.injEq] at hx
          subst hx
          rfl

lemma recordPerSec_chron (M : Nat) (secs : List Nat) :
    ∀ st : List (Nat × Nat), secsMonoB secs = true →
    List.Chain' (· < ·) (st.map Prod.fst) →
    (∀ b ∈ st.getLast?, ∀ s ∈ secs.head?, b.1 ≤ s) →
    List.Chain' (· < ·) ((List.foldl (recordPerSec M) st secs).map Prod.fst) := by
  induction secs with
  | nil => intro st _ hc _; simpa using hc
  | cons s rest ih =>
    intro st hmono hc hhead
    have hlast : ∀ b ∈ st.getLast?, b.1 ≤ s := fun b hb => hhead b hb s rfl
    obtain ⟨hc', hlast'⟩ := recordPerSec_step M s st hc hlast
    simp only [List.foldl_cons]
    cases rest with
    | nil => simpa using hc'
    | cons s2 r2 =>
      simp only [secsMonoB, Bool.and_eq_true, decide_eq_true_eq] at hmono
      obtain ⟨h12, hmono2⟩ := hmono
      refine ih (recordPerSec M st s) hmono2 hc' ?_
      intro b hb s' hs'
      simp only [List.head?_cons, Option.mem_def, Option.some.injEq] at hs'
      have hbs := hlast' b hb
      omega

/-- C2: For every reachable per-second histogram state and every count,
`get_commands_statistics_per_sec(count)` (exposed as
`mongodb_get_commands_statistics_per_sec`) returns the most recent `count`
buckets in chronological order, oldest first; if fewer than `count` buckets
exist it returns all of them; `count = 0` yields the empty sequence; and the
spec's concrete example — completions in seconds `[t, t+1, t+2]` with counts
`[3, 1, 2]`, queried with `count = 2` — yields the buckets for `t+1` and
`t+2` with counts 1 and 2, oldest first. -/
theorem c2_commands_statistics_per_sec (M count t : Nat) (secs : List Nat)
    (hM : 3 ≤ M) (hmono : secsMonoB secs = true) :
    (get_commands_statistics_per_sec count (List.foldl (recordPerSec M) [] secs)).length
        = min count (List.foldl (recordPerSec M) [] secs).length ∧
    List.IsSuffix
        (get_commands_statistics_per_sec count (List.foldl (recordPerSec M) [] secs))
        (List.foldl (recordPerSec M) [] secs) ∧
    List.Chain' (· < ·)
        ((get_commands_statistics_per_sec count
            (List.foldl (recordPerSec M) [] secs)).map Prod.fst) ∧
    get_commands_statistics_per_sec 0 (List.foldl (recordPerSec M) [] secs) = [] ∧
    get_commands_statistics_per_sec 2
        (List.foldl (recordPerSec M) [] [t, t, t, t + 1, t + 2, t + 2]) =
      [(t + 1, 1), (t + 2, 2)] := by
  refine ⟨?_, ?_, ?_, ?_, ?_⟩
  · simp only [get_commands_statistics_per_sec, List.length_drop]
    omega
  · exact List.drop_suffix _ _
  · have hchain : List.Chain' (· < ·)
        ((List.foldl (recordPerSec M) [] secs).map Prod.fst) := by
      refine recordPerSec_chron M secs [] hmono (by simp) (by simp)
    have hsuf : List.IsSuffix
        (get_commands_statistics_per_sec count (List.foldl (recordPerSec M) [] secs))
        (List.foldl (recordPerSec M) [] secs) := List.drop_suffix _ _
    exact hchain.suffix (hsuf.map Prod.fst)
  · simp [get_commands_statistics_per_sec]
  · have h1 : (1 : Nat) < M := by omega
    have h2 : (2 : Nat) < M := by omega
    have hne1 : ¬(t = t + 1) := by omega
    have hne2 : ¬(t + 1 = t + 2) := by omega
    have e1 : recordPerSec M [] t = [(t, 1)] := rfl
    have e2 : recordPerSec M [(t, 1)] t = [(t, 2)] := by
      simp [recordPerSec]
    have e3 : recordPerSec M [(t, 2)] t = [(t, 3)] := by
      simp [recordPerSec]
    have e4 : recordPerSec M [(t, 3)] (t + 1) = [(t, 3), (t + 1, 1)] := by
      simp [recordPerSec, hne1, h1]
    have e5 : recordPerSec M [(t, 3), (t + 1, 1)] (t + 2) =
        [(t, 3), (t + 1, 1), (t + 2, 1)] := by
      simp [recordPerSec, hne2, h2]
    have e6 : recordPerSec M [(t, 3), (t + 1, 1), (t + 2, 1)] (t + 2) =
        [(t, 3), (t + 1, 1), (t + 2, 2)] := by
      simp [recordPerSec]
    have hcomp : List.foldl (recordPerSec M) [] [t, t, t, t + 1, t + 2, t + 2] =
        [(t, 3), (t + 1, 1), (t + 2, 2)] := by
      simp only [List.foldl_cons, List.foldl_nil, e1, e2, e3, e4, e5, e6]
    rw [hcomp]
    rfl

/-- Witness for C2 at concrete inputs: capacity 3, seconds recorded
[0,5], query count 1; and the concrete spec example at t = 0. -/
theorem c2_commands_statistics_per_sec_witness :
    3 ≤ 3 ∧ secsMonoB [0, 5] = true ∧
    get_commands_statistics_per_sec 2
        (List.foldl (recordPerSec 3) [] [0, 0, 0, 1, 2, 2]) = [(1, 1), (2, 2)] :=
  ⟨by decide, by decide,
    (c2_commands_statistics_per_sec 3 1 0 [0, 5] (by decide) (by decide)).2.2.2.2⟩

/-- Modelled from the spec: the discovery state of a monitored server
(spec §3). -/
inductive ServerKind where
  | Unknown | Standalone | Mongos | RsPrimary | RsSecondary | RsArbiter | RsOther | RsGhost
deriving DecidableEq, Repr

/-- Modelled from the spec: `ServerDescription` from the missing
`mongodb_events.rs` (spec §3): address (host, port), discovery state, last
known round-trip time. -/
structure ServerDescription where
  host : String
  port : Nat
  kind : ServerKind
  rtt : Option Nat
deriving DecidableEq, Repr

/-- Modelled from the spec: `record_topology(new_descriptions)` of the
Topology Aggregator in the missing `mongodb_events.rs` — replaces the entire
tracked set (spec §4.2). -/
def record_topology (st new_descriptions : List ServerDescription) :
    List ServerDescription :=
  new_descriptions

/-- Modelled from the spec: `get_database_topology()` of the missing
`mongodb_events.rs`, exposed by `mongodb_get_database_topology` in `cmd.rs`
(lines 101–105) — returns a point-in-time copy of the tracked set
(spec §4.2). -/
def get_database_topology (st : List ServerDescription) : List ServerDescription :=
  st

/-- C3: For every sequence of topology-changed events (and any prior tracked
set), `get_database_topology()` called immediately after the last event
returns exactly the server descriptions carried by that last event: each
event fully replaces the tracked set and nothing is merged from prior
state. -/
theorem c3_database_topology (st0 last : List ServerDescription)
    (events : List (List ServerDescription))
    (h : events.getLast? = some last) :
    get_database_topology (List.foldl record_topology st0 events) = last := by
  induction events generalizing st0 with
  | nil => simp at h
  | cons e rest ih =>
    cases rest with
    | nil =>
      simp only [List.getLast?_singleton, Option.some.injEq] at h
      subst h
      rfl
    | cons e2 r2 =>
      rw [List.getLast?_cons_cons] at h
      simp only [List.foldl_cons]
      exact ih _ h

/-- Witness for C3: two topology-changed events; the query returns the
second event's descriptions only. -/
theorem c3_database_topology_witness :
    ([[⟨"a", 27017, ServerKind.Unknown, none⟩],
        [⟨"b", 27018, ServerKind.RsPrimary, some 5⟩]] :
          List (List ServerDescription)).getLast? =
        some [⟨"b", 27018, ServerKind.RsPrimary, some 5⟩] ∧
    get_database_topology
        (List.foldl record_topology []
          [[⟨"a", 27017, ServerKind.Unknown, none⟩],
           [⟨"b", 27018, ServerKind.RsPrimary, some 5⟩]]) =
      [⟨"b", 27018, ServerKind.RsPrimary, some 5⟩] :=
  ⟨by decide, c3_database_topology [] _ _ (by decide)⟩

/-- Modelled from the spec: `HeartbeatSample` from the missing
`mongodb_events.rs` (spec §3): sequence index, latency duration or failure
marker (`latency = none` marks a failed heartbeat), timestamp. -/
structure HeartbeatSample where
  seq : Nat
  latency : Option Nat
  timestamp : Nat
deriving DecidableEq, Repr

/-- Modelled from the spec: appending one sample to a connection's ring
buffer of capacity `N`, evicting the oldest entry if at capacity
(spec §3, §4.3). -/
def pushSample (N : Nat) (buf : List HeartbeatSample) (s : HeartbeatSample) :
    List HeartbeatSample :=
  if buf.length < N then buf ++ [s] else buf.drop 1 ++ [s]

/-- Modelled from the spec: `record_heartbeat(connection_key, sample)` of the
Heartbeat Aggregator in the missing `mongodb_events.rs` — appends to that
connection's ring buffer, creating it on first sighting (spec §4.3).  State
is an association list with one entry per connection key. -/
def record_heartbeat (N : Nat) :
    List (Nat × List HeartbeatSample) → Nat → HeartbeatSample →
      List (Nat × List HeartbeatSample)
  | [], key, s => [(key, pushSample N [] s)]
  | (k, buf) :: rest, key, s =>
    if k = key then (k, pushSample N buf s) :: rest
    else (k, buf) :: record_heartbeat N rest key s

/-- The ring buffer tracked for `key` (empty if the key is untracked). -/
def findBuf : List (Nat × List HeartbeatSample) → Nat → List HeartbeatSample
  | [], _ => []
  | (k, buf) :: rest, key => if k = key then buf else findBuf rest key

/-- Replay of a whole heartbeat event stream against the empty aggregator. -/
def replayHeartbeats (N : Nat) (events : List (Nat × HeartbeatSample)) :
    List (Nat × List HeartbeatSample) :=
  List.foldl (fun st e => record_heartbeat N st e.1 e.2) [] events

/-- The most recent `n` elements of a list, in order. -/
def lastN (n : Nat) (l : List α) : List α :=
  l.drop (l.length - n)

lemma pushSample_lastN (N : Nat) (hN : 0 < N) (l : List HeartbeatSample)
    (s : HeartbeatSample) :
    pushSample N (lastN N l) s = lastN N (l ++ [s]) := by
  by_cases hlen : l.length < N
  · have h0 : l.length - N = 0 := by omega
    have h1 : (l.length + 1) - N = 0 := by omega
    simp [pushSample, lastN, h0, h1, hlen]
  · have hlN : (lastN N l).length = N := by
      simp only [lastN, List.length_drop]
      omega
    have hnot : ¬(lastN N l).length < N := by omega
    have hle : l.length + 1 - N ≤ l.length := by omega
    simp only [pushSample, hnot, if_false, lastN, List.length_append,
      List.length_cons, List.length_nil, Nat.zero_add]
    rw [List.drop_append_of_le_length hle, List.drop_drop]
    have hidx : l.length - N + 1 = l.length + 1 - N := by omega
    rw [hidx]
    have hcond : ¬(List.drop (l.length - N) l).length < N := by
      simp only [List.length_drop]
      omega
    rw [if_neg hcond]

lemma foldl_pushSample_lastN (N : Nat) (hN : 0 < N)
    (samples : List HeartbeatSample) :
    List.foldl (pushSample N) [] samples = lastN N samples := by
  induction samples using List.reverseRecOn with
  | nil => simp [lastN]
  | append_singleton l s ih =>
    rw [List.foldl_append, List.foldl_cons, List.foldl_nil, ih,
      pushSample_lastN N hN l s]

lemma findBuf_record_heartbeat (N : Nat) (st : List (Nat × List HeartbeatSample))
    (k key : Nat) (s : HeartbeatSample) :
    findBuf (record_heartbeat N st k s) key =
      if k = key then pushSample N (findBuf st k) s else findBuf st key := by
  induction st with
  | nil => by_cases hk : k = key <;> simp [record_heartbeat, findBuf, hk]
  | cons e rest ih =>
    obtain ⟨k', buf⟩ := e
    by_cases h1 : k' = k
    · subst h1
      by_cases h2 : k' = key <;> simp [record_heartbeat, findBuf, h2]
    · by_cases h2 : k' = key
      · subst h2
        have h3 : ¬k = k' := fun h => h1 h.symm
        simp [record_heartbeat, findBuf, h1, h3]
      · simp [record_heartbeat, findBuf, h1, h2, ih]

lemma findBuf_foldl (N : Nat) (events : List (Nat × HeartbeatSample)) (key : Nat) :
    ∀ st, findBuf (List.foldl (fun st e => record_heartbeat N st e.1 e.2) st events) key =
      List.foldl (pushSample N) (findBuf st key)
        ((events.filter (fun e => e.1 == key)).map Prod.snd) := by
  induction events with
  | nil => intro st; rfl
  | cons e rest ih =>
    intro st
    simp only [List.foldl_cons]
    rw [ih (record_heartbeat N st e.1 e.2)]
    by_cases he : e.1 = key
    · rw [findBuf_record_heartbeat, if_pos he, he]
      simp [List.filter_cons, he]
    · rw [findBuf_record_heartbeat, if_neg he]
      simp [List.filter_cons, he]

/-- C4: For every connection key and every sequence of heartbeat samples
recorded for it, the heartbeat aggregator retains exactly the most recent
`N` samples for that connection in arrival order (all of them while fewer
than `N` have arrived): the retained buffer is the order-preserving suffix
of the samples delivered for that key, and no buffer ever exceeds the
configured capacity `N`. -/
theorem c4_heartbeat_ring (N : Nat) (hN : 0 < N)
    (events : List (Nat × HeartbeatSample)) (key : Nat) :
    findBuf (replayHeartbeats N events) key =
      lastN N ((events.filter (fun e => e.1 == key)).map Prod.snd) ∧
    List.IsSuffix (findBuf (replayHeartbeats N events) key)
      ((events.filter (fun e => e.1 == key)).map Prod.snd) ∧
    (findBuf (replayHeartbeats N events) key).length ≤ N := by
  have heq : findBuf (replayHeartbeats N events) key =
      lastN N ((events.filter (fun e => e.1 == key)).map Prod.snd) := by
    rw [replayHeartbeats, findBuf_foldl N events key []]
    exact foldl_pushSample_lastN N hN _
  refine ⟨heq, ?_, ?_⟩
  · rw [heq, lastN]
    exact List.drop_suffix _ _
  · rw [heq, lastN]
    simp only [List.length_drop]
    omega

/-- Four heartbeat events: three for connection 0 (one more than the
capacity 2 used in the witness) and one for connection 1. -/
def exC4 : List (Nat × HeartbeatSample) :=
  [(0, ⟨0, some 10, 0⟩), (1, ⟨1, some 20, 1⟩), (0, ⟨2, some 30, 2⟩),
   (0, ⟨3, none, 3⟩)]

/-- Witness for C4: with capacity 2 and three samples for connection 0, the
retained buffer is exactly the two most recent samples, in arrival order. -/
theorem c4_heartbeat_ring_witness :
    0 < 2 ∧
    findBuf (replayHeartbeats 2 exC4) 0 =
      lastN 2 ((exC4.filter (fun e => e.1 == 0)).map Prod.snd) ∧
    findBuf (replayHeartbeats 2 exC4) 0 = [⟨2, some 30, 2⟩, ⟨3, none, 3⟩] :=
  ⟨by decide, (c4_heartbeat_ring 2 (by decide) exC4 0).1, by decide⟩

/-- Modelled from the spec: the latency of the most recent non-failure
sample of a buffer, if any (spec §4.3). -/
def lastSuccessLatency : List HeartbeatSample → Option Nat
  | [] => none
  | s :: rest =>
    match lastSuccessLatency rest with
    | some v => some v
    | none => s.latency

/-- Modelled from the spec: the reported latency metric for one connection:
the most recent non-failure latency, or the designated failure sentinel when
every retained sample is a failure (spec §4.3). -/
def latencyMetric (sentinel : Nat) (buf : List HeartbeatSample) : Nat :=
  (lastSuccessLatency buf).getD sentinel

/-- Modelled from the spec: `get_connection_heartbeat()` of the missing
`mongodb_events.rs`, exposed by `mongodb_get_connection_heartbeat` in
`cmd.rs` (lines 107–111) — one (connection key, latency metric) pair per
tracked connection; connections with zero retained samples are omitted
(spec §4.3). -/
def get_connection_heartbeat (sentinel : Nat)
    (st : List (Nat × List HeartbeatSample)) : List (Nat × Nat) :=
  (st.filter (fun e => !e.2.isEmpty)).map (fun e => (e.1, latencyMetric sentinel e.2))

lemma lastSuccessLatency_eq (l : List HeartbeatSample) :
    lastSuccessLatency l = (l.filterMap HeartbeatSample.latency).getLast? := by
  induction l with
  | nil => rfl
  | cons s rest ih =>
    cases hs : s.latency with
    | none =>
      simp only [lastSuccessLatency, ih, List.filterMap_cons, hs]
      cases hres : (rest.filterMap HeartbeatSample.latency).getLast? <;> simp [hres]
    | some v =>
      simp only [lastSuccessLatency, ih, List.filterMap_cons, hs]
      cases hres : (rest.filterMap HeartbeatSample.latency).getLast? with
      | none =>
        have hnil : rest.filterMap HeartbeatSample.latency = [] :=
          List.getLast?_eq_none_iff.mp hres
        simp [hnil]
      | some w =>
        cases hL : rest.filterMap HeartbeatSample.latency with
        | nil => rw [hL] at hres; simp at hres
        | cons a L2 =>
          show some w = (v :: a :: L2).getLast?
          rw [List.getLast?_cons_cons, ← hL, hres]

lemma pushSample_ne_nil (N : Nat) (buf : List HeartbeatSample) (s : HeartbeatSample) :
    pushSample N buf s ≠ [] := by
  unfold pushSample
  split <;> simp

lemma keys_record_heartbeat (N : Nat) (k : Nat) (s : HeartbeatSample) :
    ∀ (st : List (Nat × List HeartbeatSample)) (key : Nat),
      key ∈ (record_heartbeat N st k s).map Prod.fst ↔
        key = k ∨ key ∈ st.map Prod.fst := by
  intro st
  induction st with
  | nil => intro key; simp [record_heartbeat]
  | cons e rest ih =>
    intro key
    obtain ⟨k', buf⟩ := e
    by_cases h1 : k' = k
    · subst h1
      simp only [record_heartbeat, if_true]
      simp only [List.map_cons, List.mem_cons]
      tauto
    · simp only [record_heartbeat, if_neg h1, List.map_cons, List.mem_cons, ih key]
      tauto

lemma nodup_record_heartbeat (N : Nat) (k : Nat) (s : HeartbeatSample) :
    ∀ st : List (Nat × List HeartbeatSample), (st.map Prod.fst).Nodup →
      ((record_heartbeat N st k s).map Prod.fst).Nodup := by
  intro st
  induction st with
  | nil => intro _; simp [record_heartbeat]
  | cons e rest ih =>
    intro h
    obtain ⟨k', buf⟩ := e
    simp only [List.map_cons, List.nodup_cons] at h
    obtain ⟨hk', hrest⟩ := h
    by_cases h1 : k' = k
    · subst h1
      simp only [record_heartbeat, if_true]
      simp only [List.map_cons, List.nodup_cons]
      exact ⟨hk', hrest⟩
    · simp only [record_heartbeat, if_neg h1, List.map_cons, List.nodup_cons]
      refine ⟨?_, ih hrest⟩
      rw [keys_record_heartbeat]
      rintro (h | h)
      · exact h1 h
      · exact hk' h

lemma bufs_record_heartbeat (N : Nat) (k : Nat) (s : HeartbeatSample) :
    ∀ st : List (Nat × List HeartbeatSample), (∀ e ∈ st, e.2 ≠ []) →
      ∀ e ∈ record_heartbeat N st k s, e.2 ≠ [] := by
  intro st
  induction st with
  | nil =>
    intro _ e he
    simp only [record_heartbeat, List.mem_singleton] at he
    subst he
    exact pushSample_ne_nil N [] s
  | cons e0 rest ih =>
    intro h e he
    obtain ⟨k', buf⟩ := e0
    by_cases h1 : k' = k
    · subst h1
      simp only [record_heartbeat, if_true] at he
      rw [List.mem_cons] at he
      rcases he with he | he
      · subst he
        exact pushSample_ne_nil N buf s
      · exact h e (List.mem_cons_of_mem _ he)
    · simp only [record_heartbeat, if_neg h1, List.mem_cons] at he
      rcases he with he | he
      · subst he
        exact h (k', buf) (List.mem_cons_self _ _)
      · exact ih (fun x hx => h x (List.mem_cons_of_mem _ hx)) e he

lemma replay_wf (N : Nat) (events : List (Nat × HeartbeatSample)) :
    ((replayHeartbeats N events).map Prod.fst).Nodup ∧
      (∀ e ∈ replayHeartbeats N events, e.2 ≠ []) ∧
      (∀ key, key ∈ (replayHeartbeats N events).map Prod.fst ↔
        key ∈ events.map Prod.fst) := by
  have main : ∀ (evs : List (Nat × HeartbeatSample))
      (st : List (Nat × List HeartbeatSample)), (st.map Prod.fst).Nodup →
      (∀ e ∈ st, e.2 ≠ []) →
      (((List.foldl (fun st e => record_heartbeat N st e.1 e.2) st evs).map
          Prod.fst).Nodup ∧
        (∀ e ∈ List.foldl (fun st e => record_heartbeat N st e.1 e.2) st evs,
          e.2 ≠ []) ∧
        (∀ key,
          key ∈ (List.foldl (fun st e => record_heartbeat N st e.1 e.2) st evs).map
            Prod.fst ↔ key ∈ evs.map Prod.fst ∨ key ∈ st.map Prod.fst)) := by
    intro evs
    induction evs with
    | nil => intro st h1 h2; exact ⟨h1, h2, by simp⟩
    | cons ev rest ih =>
      intro st h1 h2
      simp only [List.foldl_cons]
      obtain ⟨ih1, ih2, ih3⟩ := ih (record_heartbeat N st ev.1 ev.2)
        (nodup_record_heartbeat N ev.1 ev.2 st h1)
        (bufs_record_heartbeat N ev.1 ev.2 st h2)
      refine ⟨ih1, ih2, ?_⟩
      intro key
      rw [ih3 key, keys_record_heartbeat]
      simp only [List.map_cons, List.mem_cons]
      tauto
  obtain ⟨h1, h2, h3⟩ := main events [] (by simp) (by simp)
  exact ⟨h1, h2, fun key => by rw [replayHeartbeats, h3 key]; simp⟩

lemma findBuf_eq_of_mem (st : List (Nat × List HeartbeatSample)) (key : Nat)
    (buf : List HeartbeatSample) (hnd : (st.map Prod.fst).Nodup)
    (h : (key, buf) ∈ st) : findBuf st key = buf := by
  induction st with
  | nil => simp at h
  | cons e rest ih =>
    simp only [List.map_cons, List.nodup_cons] at hnd
    rw [List.mem_cons] at h
    rcases h with h | h
    · rw [← h]
      simp [findBuf]
    · have hkey : key ∈ rest.map Prod.fst := by
        have := List.mem_map_of_mem Prod.fst h
        simpa using this
      have hne : e.1 ≠ key := fun hc => hnd.1 (hc ▸ hkey)
      simp only [findBuf, if_neg hne]
      exact ih hnd.2 h

lemma mem_of_key_mem (st : List (Nat × List HeartbeatSample)) (key : Nat)
    (h : key ∈ st.map Prod.fst) : (key, findBuf st key) ∈ st := by
  induction st with
  | nil => simp at h
  | cons e rest ih =>
    by_cases hk : e.1 = key
    · simp only [findBuf, if_pos hk]
      have hpe : (key, e.2) = e := by rw [← hk]
      rw [hpe]
      exact List.mem_cons_self _ _
    · simp only [List.map_cons, List.mem_cons] at h
      rcases h with h | h
      · exact absurd h.symm hk
      · simp only [findBuf, if_neg hk]
        exact List.mem_cons_of_mem _ (ih h)

lemma mem_get_connection_heartbeat (sentinel : Nat)
    (st : List (Nat × List HeartbeatSample)) (key v : Nat) :
    (key, v) ∈ get_connection_heartbeat sentinel st ↔
      ∃ buf, (key, buf) ∈ st ∧ buf ≠ [] ∧ v = latencyMetric sentinel buf := by
  constructor
  · intro h
    simp only [get_connection_heartbeat, List.mem_map] at h
    obtain ⟨e, he, heq⟩ := h
    rw [List.mem_filter] at he
    simp only [Prod.mk.injEq] at heq
    obtain ⟨hk, hv⟩ := heq
    refine ⟨e.2, ?_, ?_, hv.symm⟩
    · rw [← hk, Prod.mk.eta]
      exact he.1
    · have := he.2
      simp only [Bool.not_eq_true'] at this
      intro hnil
      rw [hnil] at this
      simp at this
  · rintro ⟨buf, hmem, hne, hv⟩
    simp only [get_connection_heartbeat, List.mem_map]
    refine ⟨(key, buf), List.mem_filter.mpr ⟨hmem, ?_⟩, by simp [hv]⟩
    simp only [Bool.not_eq_true']
    simpa using hne

/-- C5: For every reachable heartbeat-aggregator state,
`get_connection_heartbeat()` (exposed as `mongodb_get_connection_heartbeat`)
returns exactly one (connection key, latency metric) pair per connection
that has at least one recorded sample — the metric being the most recent
non-failure sample's latency, with the designated sentinel when every
retained sample is a failure — and omits every connection with zero
samples. -/
theorem c5_connection_heartbeat (N sentinel : Nat) (hN : 0 < N)
    (events : List (Nat × HeartbeatSample)) (key : Nat) :
    ((get_connection_heartbeat sentinel (replayHeartbeats N events)).map
        Prod.fst).Nodup ∧
    ((∃ v, (key, v) ∈ get_connection_heartbeat sentinel (replayHeartbeats N events)) ↔
      key ∈ events.map Prod.fst) ∧
    (∀ v, (key, v) ∈ get_connection_heartbeat sentinel (replayHeartbeats N events) →
      v = ((findBuf (replayHeartbeats N events) key).filterMap
            HeartbeatSample.latency).getLast?.getD sentinel) := by
  obtain ⟨hnd, hbufs, hkeys⟩ := replay_wf N events
  refine ⟨?_, ⟨?_, ?_⟩, ?_⟩
  · have hmapeq : (get_connection_heartbeat sentinel (replayHeartbeats N events)).map
        Prod.fst =
        ((replayHeartbeats N events).filter (fun e => !e.2.isEmpty)).map Prod.fst := by
      simp [get_connection_heartbeat, List.map_map, Function.comp]
    rw [hmapeq]
    exact hnd.sublist ((List.filter_sublist _).map Prod.fst)
  · rintro ⟨v, hv⟩
    rw [mem_get_connection_heartbeat] at hv
    obtain ⟨buf, hmem, _, _⟩ := hv
    rw [← hkeys key]
    have := List.mem_map_of_mem Prod.fst hmem
    simpa using this
  · intro hk
    rw [← hkeys key] at hk
    have hmem := mem_of_key_mem _ key hk
    have hne : findBuf (replayHeartbeats N events) key ≠ [] := hbufs _ hmem
    exact ⟨latencyMetric sentinel (findBuf (replayHeartbeats N events) key),
      (mem_get_connection_heartbeat sentinel _ key _).mpr ⟨_, hmem, hne, rfl⟩⟩
  · intro v hv
    rw [mem_get_connection_heartbeat] at hv
    obtain ⟨buf, hmem, hne, hv⟩ := hv
    have hfb : findBuf (replayHeartbeats N events) key = buf :=
      findBuf_eq_of_mem _ key buf hnd hmem
    rw [hfb, hv, latencyMetric, lastSuccessLatency_eq]

/-- Witness for C5 on the C4 event log: capacity 2, sentinel 999.
Connection 0's most recent sample is a failure, so its metric falls back to
the latency 30 of the preceding success; connection 1 reports 20. -/
theorem c5_connection_heartbeat_witness :
    0 < 2 ∧
    ((∃ v, (0, v) ∈ get_connection_heartbeat 999 (replayHeartbeats 2 exC4)) ↔
      0 ∈ exC4.map Prod.fst) ∧
    get_connection_heartbeat 999 (replayHeartbeats 2 exC4) = [(0, 30), (1, 20)] :=
  ⟨by decide, (c5_connection_heartbeat 2 999 (by decide) exC4 0).2.1, by decide⟩

/-- Modelled from the spec: the raw command-event stream delivered to the
command handler of the missing `mongodb_events.rs` (spec §4.1): "started"
carries a request identifier and command name; "succeeded"/"failed" carry
the request identifier, outcome and elapsed duration. -/
inductive CommandEvent where
  | started (requestId : Nat) (name : String) (timestamp : Nat)
  | finished (requestId : Nat) (success : Bool) (duration : Nat) (timestamp : Nat)
deriving DecidableEq, Repr

/-- Pending-correlation lookup by request identifier (spec §4.1). -/
def lookupPending (rid : Nat) : List (Nat × String) → Option String
  | [] => none
  | (r, n) :: rest => if r = rid then some n else lookupPending rid rest

/-- Removal of the matching pending entry by request identifier. -/
def erasePending (rid : Nat) : List (Nat × String) → List (Nat × String)
  | [] => []
  | (r, n) :: rest => if r = rid then rest else (r, n) :: erasePending rid rest

/-- Modelled from the spec: the command handler's state — the
pending-correlation table plus the `FinishedCommandInfo` stream forwarded to
the Command Metrics Aggregator (spec §4.1). -/
structure CommandPipelineState where
  pending : List (Nat × String)
  emitted : List FinishedCommandInfo
deriving DecidableEq, Repr

/-- Modelled from the spec: one command-handler step (spec §4.1).  On
"started": insert into the pending table.  On "succeeded"/"failed": remove
the matching pending entry by request identifier; if absent, discard
silently; otherwise construct a `FinishedCommandInfo` and forward it. -/
def stepCommand (st : CommandPipelineState) : CommandEvent → CommandPipelineState
  | .started rid name _ts => { st with pending := st.pending ++ [(rid, name)] }
  | .finished rid success dur ts =>
    match lookupPending rid st.pending with
    | some name =>
      { pending := erasePending rid st.pending,
        emitted := st.emitted ++ [⟨name, dur, ts, success⟩] }
    | none => st

/-- Replay of a whole command-event stream against the empty handler
state. -/
def runCommands (events : List CommandEvent) : CommandPipelineState :=
  List.foldl stepCommand ⟨[], []⟩ events

/-- C6: A completion event whose request identifier has no matching pending
"started" entry is discarded silently: inserting it anywhere in the stream
leaves the final handler state — the pending table, the emitted
`FinishedCommandInfo` stream, and hence the per-second histogram built from
the emitted stream — exactly as without it. -/
theorem c6_unmatched_finish (pre post : List CommandEvent) (rid : Nat)
    (success : Bool) (dur ts : Nat)
    (h : lookupPending rid (runCommands pre).pending = none) :
    runCommands (pre ++ CommandEvent.finished rid success dur ts :: post) =
      runCommands (pre ++ post) ∧
    (runCommands (pre ++ CommandEvent.finished rid success dur ts :: post)).emitted =
      (runCommands (pre ++ post)).emitted ∧
    ∀ M : Nat,
      List.foldl (recordPerSec M) []
          ((runCommands (pre ++ CommandEvent.finished rid success dur ts ::
              post)).emitted.map FinishedCommandInfo.timestamp) =
        List.foldl (recordPerSec M) []
          ((runCommands (pre ++ post)).emitted.map FinishedCommandInfo.timestamp) := by
  have hstep : stepCommand (runCommands pre) (.finished rid success dur ts) =
      runCommands pre := by
    simp only [stepCommand, h]
  have hmain : runCommands (pre ++ CommandEvent.finished rid success dur ts :: post) =
      runCommands (pre ++ post) := by
    rw [runCommands, runCommands, List.foldl_append, List.foldl_append,
      List.foldl_cons]
    rw [show List.foldl stepCommand ⟨[], []⟩ pre = runCommands pre from rfl, hstep]
  exact ⟨hmain, by rw [hmain], fun M => by rw [hmain]⟩

/-- Witness for C6: a lone "failed" completion with request id 7 arriving
after one correctly matched pair leaves the emitted stream unchanged. -/
theorem c6_unmatched_finish_witness :
    lookupPending 7
        (runCommands [.started 1 "find" 0, .finished 1 true 4 5]).pending = none ∧
    runCommands
        [.started 1 "find" 0, .finished 1 true 4 5, .finished 7 false 9 9] =
      runCommands [.started 1 "find" 0, .finished 1 true 4 5] :=
  ⟨by decide,
    (c6_unmatched_finish [.started 1 "find" 0, .finished 1 true 4 5] [] 7 false 9 9
      (by decide)).1⟩

/-- The three process-wide aggregator states guarded by the
`DATABASE_TOPOLOGY`, `DATABASE_HEARTBEAT` and `SERVER_METRIC` locks that
`cmd.rs` reads (lines 101–123).  The Command Metrics Aggregator holds both
the slowest-commands ranking and the per-second histogram. -/
structure ObservabilityState where
  topology : List ServerDescription
  heartbeat : List (Nat × List HeartbeatSample)
  slowest : List FinishedCommandInfo
  perSec : List (Nat × Nat)
deriving DecidableEq, Repr

/-- Embedding of `mongodb_get_database_topology` (`cmd.rs` lines 101–105):
lock, read, return; the pair carries the returned snapshot and the shared
state after the call. -/
def mongodb_get_database_topology (st : ObservabilityState) :
    List ServerDescription × ObservabilityState :=
  (get_database_topology st.topology, st)

/-- Embedding of `mongodb_get_connection_heartbeat` (`cmd.rs` lines
107–111). -/
def mongodb_get_connection_heartbeat (sentinel : Nat) (st : ObservabilityState) :
    List (Nat × Nat) × ObservabilityState :=
  (get_connection_heartbeat sentinel st.heartbeat, st)

/-- Embedding of `mongodb_get_commands_statistics_per_sec` (`cmd.rs` lines
113–117). -/
def mongodb_get_commands_statistics_per_sec (count : Nat) (st : ObservabilityState) :
    List (Nat × Nat) × ObservabilityState :=
  (get_commands_statistics_per_sec count st.perSec, st)

/-- Embedding of `mongodb_n_slowest_commands` (`cmd.rs` lines 119–123). -/
def mongodb_n_slowest_commands (count : Nat) (st : ObservabilityState) :
    List FinishedCommandInfo × ObservabilityState :=
  (get_n_slowest_commands count st.slowest, st)

/-- C7: Every Query Facade accessor is read-only and idempotent: called on
any aggregator state it leaves the state unchanged, and called twice with no
intervening writes it returns two identical snapshots. -/
theorem c7_facade_idempotent (st : ObservabilityState) (sentinel count : Nat) :
    ((mongodb_get_database_topology st).2 = st ∧
      (mongodb_get_database_topology (mongodb_get_database_topology st).2).1 =
        (mongodb_get_database_topology st).1) ∧
    ((mongodb_get_connection_heartbeat sentinel st).2 = st ∧
      (mongodb_get_connection_heartbeat sentinel
          (mongodb_get_connection_heartbeat sentinel st).2).1 =
        (mongodb_get_connection_heartbeat sentinel st).1) ∧
    ((mongodb_get_commands_statistics_per_sec count st).2 = st ∧
      (mongodb_get_commands_statistics_per_sec count
          (mongodb_get_commands_statistics_per_sec count st).2).1 =
        (mongodb_get_commands_statistics_per_sec count st).1) ∧
    ((mongodb_n_slowest_commands count st).2 = st ∧
      (mongodb_n_slowest_commands count
          (mongodb_n_slowest_commands count st).2).1 =
        (mongodb_n_slowest_commands count st).1) :=
  ⟨⟨rfl, rfl⟩, ⟨rfl, rfl⟩, ⟨rfl, rfl⟩, ⟨rfl, rfl⟩⟩

/-- Modelled from the spec: the error type of the missing `error.rs`.
`cmd.rs` uses the `ClientNotAvailable` variant when the shared client slot is
empty, and otherwise propagates driver failures. -/
inductive PError where
  | ClientNotAvailable
  | DriverFailure
deriving DecidableEq, Repr

/-- Modelled from the spec: the shared application state of the missing
`model.rs` (`AppState`, reached through `AppArg`): the mutex-guarded
optional client stored by `mongodb_connect`. -/
structure AppStateM (Client : Type) where
  client : Option Client

/-- Wrapping of a mathematical integer into the signed 64-bit
two's-complement range, as Rust release-mode `i64` arithmetic does. -/
def wrap_i64 (x : Int) : Int :=
  (x + 2 ^ 63) % 2 ^ 64 - 2 ^ 63

/-- The Rust `as u64` cast of an in-range `i64` value: reinterpretation
modulo `2^64`. -/
def as_u64 (x : Int) : Nat :=
  (x % 2 ^ 64).toNat

/-- Embedding of the driver's `FindOptions` builder as used by `cmd.rs`:
every field is optional and defaults to unset. -/
structure FindOptionsM (Doc : Type) where
  limit : Option Int := none
  skip : Option Nat := none
  projection : Option Doc := none
  sortSpec : Option Doc := none

/-- Embedding of the `FindOptions` construction in `mongodb_find_documents`
(`cmd.rs` lines 57–62): `limit(per_page)`, `skip((per_page * page) as u64)`,
projection and sort. -/
def find_options (Doc : Type) (page per_page : Int)
    (documents_projection documents_sort : Doc) : FindOptionsM Doc :=
  { limit := some per_page
    skip := some (as_u64 (wrap_i64 (per_page * page)))
    projection := some documents_projection
    sortSpec := some documents_sort }

/-- Embedding of `mongodb_find_documents` (`cmd.rs` lines 42–67).  The
driver's `find` + cursor collect is abstracted as `driverFind`; the third
component counts the driver queries issued during the call. -/
def mongodb_find_documents {Client Doc : Type} (state : AppStateM Client)
    (database_name collection_name : String) (page per_page : Int)
    (documents_filter documents_projection documents_sort : Doc)
    (driverFind : Client → String → String → Doc → FindOptionsM Doc →
      Except PError (List Doc)) :
    Except PError (List Doc) × AppStateM Client × Nat :=
  match state.client with
  | none => (Except.error PError.ClientNotAvailable, state, 0)
  | some client =>
    (driverFind client database_name collection_name documents_filter
        (find_options Doc page per_page documents_projection documents_sort),
      state, 1)

/-- Embedding of `mongodb_count_documents` (`cmd.rs` lines 69–82). -/
def mongodb_count_documents {Client Doc : Type} (state : AppStateM Client)
    (database_name collection_name : String) (documents_filter : Doc)
    (driverCount : Client → String → String → Doc → Except PError Nat) :
    Except PError Nat × AppStateM Client × Nat :=
  match state.client with
  | none => (Except.error PError.ClientNotAvailable, state, 0)
  | some client =>
    (driverCount client database_name collection_name documents_filter, state, 1)

/-- Embedding of `mongodb_aggregate_documents` (`cmd.rs` lines 84–99). -/
def mongodb_aggregate_documents {Client Doc : Type} (state : AppStateM Client)
    (database_name collection_name : String) (stages : List Doc)
    (driverAggregate : Client → String → String → List Doc →
      Except PError (List Doc)) :
    Except PError (List Doc) × AppStateM Client × Nat :=
  match state.client with
  | none => (Except.error PError.ClientNotAvailable, state, 0)
  | some client =>
    (driverAggregate client database_name collection_name stages, state, 1)

/-- One per-type counter bump, embedding
`entry.entry(bson_type).or_default(); *eentry = *eentry + 1` in
`mongodb_analyze_documents` (`cmd.rs` lines 144–147).  BSON types are
numeric codes here: the `BsonType` classification lives in the missing
`model.rs` and is irrelevant to the counting structure. -/
def bumpType : List (Nat × Nat) → Nat → List (Nat × Nat)
  | [], ty => [(ty, 1)]
  | (t, n) :: rest, ty =>
    if t = ty then (t, n + 1) :: rest else (t, n) :: bumpType rest ty

/-- One per-field bump, embedding
`result.entry(document_key.to_string()).or_default()` in `cmd.rs`
(lines 144–145). -/
def bumpField : List (String × List (Nat × Nat)) → String → Nat →
    List (String × List (Nat × Nat))
  | [], key, ty => [(key, bumpType [] ty)]
  | (k, counts) :: rest, key, ty =>
    if k = key then (k, bumpType counts ty) :: rest
    else (k, counts) :: bumpField rest key ty

/-- The per-field per-type counting loop of `mongodb_analyze_documents`
(`cmd.rs` lines 139–149), over pre-classified documents.  The Rust HashMaps
are embedded as association lists; the claim under check is per-key and
order-independent. -/
def analyzeDocs (docs : List (List (String × Nat))) :
    List (String × List (Nat × Nat)) :=
  List.foldl
    (fun acc doc => List.foldl (fun acc kv => bumpField acc kv.1 kv.2) acc doc)
    [] docs

/-- The counts recorded for one field name (empty if the field was never
seen). -/
def findCounts : List (String × List (Nat × Nat)) → String → List (Nat × Nat)
  | [], _ => []
  | (k, counts) :: rest, key => if k = key then counts else findCounts rest key

/-- Sum of one field's counts over all BSON types. -/
def typeTotal (counts : List (Nat × Nat)) : Nat :=
  (counts.map Prod.snd).sum

def fieldTotal (key : String) (res : List (String × List (Nat × Nat))) : Nat :=
  typeTotal (findCounts res key)

/-- The whole computation of `mongodb_analyze_documents` (`cmd.rs` lines
126–155): the driver query carries `limit(1000)`, so at most the first 1000
matching documents are inspected, then counted. -/
def analyze_core (matching : List (List (String × Nat))) :
    List (String × List (Nat × Nat)) :=
  analyzeDocs (matching.take 1000)

/-- Embedding of `mongodb_analyze_documents` (`cmd.rs` lines 125–155) with
the client guard; `driverFind` abstracts the `find` call issued with
`limit(1000)`. -/
def mongodb_analyze_documents {Client Doc : Type} (state : AppStateM Client)
    (database_name collection_name : String) (documents_filter : Doc)
    (driverFind : Client → String → String → Doc → FindOptionsM Doc →
      Except PError (List (List (String × Nat)))) :
    Except PError (List (String × List (Nat × Nat))) × AppStateM Client × Nat :=
  match state.client with
  | none => (Except.error PError.ClientNotAvailable, state, 0)
  | some client =>
    match driverFind client database_name collection_name documents_filter
        { limit := some 1000 } with
    | Except.error e => (Except.error e, state, 1)
    | Except.ok docs => (Except.ok (analyzeDocs docs), state, 1)

/-- C8: Whenever no successful `mongodb_connect` has stored a client (the
shared client slot holds `None`), each of `mongodb_find_documents`,
`mongodb_count_documents`, `mongodb_aggregate_documents` and
`mongodb_analyze_documents` returns the `ClientNotAvailable` error without
issuing any driver query and without modifying the shared state. -/
theorem c8_client_not_available {Client Doc : Type} (state : AppStateM Client)
    (h : state.client = none)
    (database_name collection_name : String) (page per_page : Int)
    (documents_filter documents_projection documents_sort : Doc)
    (stages : List Doc)
    (driverFind : Client → String → String → Doc → FindOptionsM Doc →
      Except PError (List Doc))
    (driverCount : Client → String → String → Doc → Except PError Nat)
    (driverAggregate : Client → String → String → List Doc →
      Except PError (List Doc))
    (driverAnalyzeFind : Client → String → String → Doc → FindOptionsM Doc →
      Except PError (List (List (String × Nat)))) :
    mongodb_find_documents state database_name collection_name page per_page
        documents_filter documents_projection documents_sort driverFind =
      (Except.error PError.ClientNotAvailable, state, 0) ∧
    mongodb_count_documents state database_name collection_name documents_filter
        driverCount =
      (Except.error PError.ClientNotAvailable, state, 0) ∧
    mongodb_aggregate_documents state database_name collection_name stages
        driverAggregate =
      (Except.error PError.ClientNotAvailable, state, 0) ∧
    mongodb_analyze_documents state database_name collection_name documents_filter
        driverAnalyzeFind =
      (Except.error PError.ClientNotAvailable, state, 0) := by
  refine ⟨?_, ?_, ?_, ?_⟩ <;>
    simp [mongodb_find_documents, mongodb_count_documents,
      mongodb_aggregate_documents, mongodb_analyze_documents, h]

/-- Witness for C8: with an empty client slot, `mongodb_find_documents`
returns `ClientNotAvailable`, the state is unchanged, and zero driver
queries are issued. -/
theorem c8_client_not_available_witness :
    (AppStateM.mk (none : Option Unit)).client = none ∧
    mongodb_find_documents (AppStateM.mk (none : Option Unit)) "db" "coll" 0 20
        () () () (fun _ _ _ _ _ => Except.ok []) =
      (Except.error PError.ClientNotAvailable, AppStateM.mk none, 0) :=
  ⟨rfl,
    (c8_client_not_available (AppStateM.mk (none : Option Unit)) rfl "db" "coll"
      0 20 () () () [] (fun _ _ _ _ _ => Except.ok []) (fun _ _ _ _ => Except.ok 0)
      (fun _ _ _ _ => Except.ok []) (fun _ _ _ _ _ => Except.ok [])).1⟩

/-- C9: `mongodb_find_documents` builds its query with `limit = per_page`
and `skip = (per_page * page) as u64`: whenever the product fits in `i64`,
a nonnegative product yields exactly `per_page * page`, while a negative
product wraps modulo `2^64` into a value of at least `2^63` instead of
being rejected as an error. -/
theorem c9_find_skip (Doc : Type) (page per_page : Int)
    (documents_projection documents_sort : Doc)
    (hlo : -(2 ^ 63) ≤ per_page * page) (hhi : per_page * page < 2 ^ 63) :
    (find_options Doc page per_page documents_projection documents_sort).limit =
      some per_page ∧
    (0 ≤ page → 0 ≤ per_page →
      (find_options Doc page per_page documents_projection documents_sort).skip =
        some (per_page * page).toNat) ∧
    (per_page * page < 0 →
      (find_options Doc page per_page documents_projection documents_sort).skip =
          some (per_page * page + 2 ^ 64).toNat ∧
        2 ^ 63 ≤ (per_page * page + 2 ^ 64).toNat) := by
  refine ⟨rfl, ?_, ?_⟩
  · intro hp hpp
    have hnn : 0 ≤ per_page * page := Int.mul_nonneg hpp hp
    simp only [find_options, as_u64, wrap_i64, Option.some.injEq]
    omega
  · intro hneg
    refine ⟨?_, by omega⟩
    simp only [find_options, as_u64, wrap_i64, Option.some.injEq]
    omega

/-- Witness for C9: page 2, per_page 3 gives skip 6; page -1, per_page 5
gives the wrapped skip 2^64 - 5, which is at least 2^63. -/
theorem c9_find_skip_witness :
    (-(2 ^ 63) ≤ (3 : Int) * 2 ∧ (3 : Int) * 2 < 2 ^ 63 ∧
      (find_options Unit 2 3 () ()).skip = some ((3 : Int) * 2).toNat) ∧
    (-(2 ^ 63) ≤ (5 : Int) * (-1) ∧ (5 : Int) * (-1) < 2 ^ 63 ∧
      (find_options Unit (-1) 5 () ()).skip =
          some ((5 : Int) * (-1) + 2 ^ 64).toNat ∧
        2 ^ 63 ≤ ((5 : Int) * (-1) + 2 ^ 64).toNat) :=
  ⟨⟨by decide, by decide,
      (c9_find_skip Unit 2 3 () () (by decide) (by decide)).2.1 (by decide)
        (by decide)⟩,
    ⟨by decide, by decide,
      ((c9_find_skip Unit (-1) 5 () () (by decide) (by decide)).2.2 (by decide)).1,
      ((c9_find_skip Unit (-1) 5 () () (by decide) (by decide)).2.2 (by decide)).2⟩⟩

lemma typeTotal_bumpType (counts : List (Nat × Nat)) (ty : Nat) :
    typeTotal (bumpType counts ty) = typeTotal counts + 1 := by
  induction counts with
  | nil => rfl
  | cons e rest ih =>
    obtain ⟨t, n⟩ := e
    by_cases h : t = ty
    · simp only [bumpType, if_pos h, typeTotal, List.map_cons, List.sum_cons]
      omega
    · simp only [bumpType, if_neg h, typeTotal, List.map_cons, List.sum_cons] at ih ⊢
      omega

lemma fieldTotal_bumpField (res : List (String × List (Nat × Nat)))
    (k key : String) (ty : Nat) :
    fieldTotal key (bumpField res k ty) =
      fieldTotal key res + (if k = key then 1 else 0) := by
  induction res with
  | nil =>
    by_cases h : k = key <;>
      simp [bumpField, fieldTotal, findCounts, h, typeTotal, bumpType]
  | cons e rest ih =>
    obtain ⟨k0, counts⟩ := e
    by_cases h0 : k0 = k
    · subst h0
      by_cases h1 : k0 = key
      · simp only [bumpField, if_pos rfl, fieldTotal, findCounts, if_pos h1,
          typeTotal_bumpType]
      · simp only [bumpField, if_pos rfl, fieldTotal, findCounts, if_neg h1]
        simp [h1]
    · by_cases h1 : k0 = key
      · have hk : ¬k = key := fun hc => h0 (h1.trans hc.symm)
        simp only [bumpField, if_neg h0, fieldTotal, findCounts, if_pos h1]
        simp [hk]
      · simp only [bumpField, if_neg h0, fieldTotal, findCounts, if_neg h1]
        exact ih

lemma fieldTotal_foldDoc (key : String) (doc : List (String × Nat)) :
    ∀ acc, fieldTotal key
        (List.foldl (fun a kv => bumpField a kv.1 kv.2) acc doc) =
      fieldTotal key acc + (doc.map Prod.fst).count key := by
  induction doc with
  | nil => intro acc; simp
  | cons kv rest ih =>
    intro acc
    simp only [List.foldl_cons]
    rw [ih (bumpField acc kv.1 kv.2), fieldTotal_bumpField]
    by_cases h : kv.1 = key <;>
      simp [List.count_cons, h] <;> omega

lemma fieldTotal_analyzeDocs (key : String) (docs : List (List (String × Nat))) :
    ∀ acc, fieldTotal key
        (List.foldl
          (fun a d => List.foldl (fun a kv => bumpField a kv.1 kv.2) a d)
          acc docs) =
      fieldTotal key acc +
        (docs.map (fun d => (d.map Prod.fst).count key)).sum := by
  induction docs with
  | nil => intro acc; simp
  | cons d rest ih =>
    intro acc
    simp only [List.foldl_cons]
    rw [ih _, fieldTotal_foldDoc]
    simp only [List.map_cons, List.sum_cons]
    omega

lemma sum_count_eq_countP (key : String) (docs : List (List (String × Nat)))
    (hnd : ∀ d ∈ docs, (d.map Prod.fst).Nodup) :
    (docs.map (fun d => (d.map Prod.fst).count key)).sum =
      docs.countP (fun d => decide (key ∈ d.map Prod.fst)) := by
  induction docs with
  | nil => rfl
  | cons d rest ih =>
    simp only [List.map_cons, List.sum_cons, List.countP_cons]
    rw [ih (fun x hx => hnd x (List.mem_cons_of_mem _ hx))]
    by_cases hm : key ∈ d.map Prod.fst
    · rw [List.count_eq_one_of_mem (hnd d (List.mem_cons_self _ _)) hm]
      simp [hm]
      omega
    · rw [List.count_eq_zero.mpr hm]
      simp [hm]

/-- C10: `mongodb_analyze_documents` inspects at most the first 1000
documents matching the filter, and for every field name, the sum of the
reported counts over all BSON types equals the number of inspected documents
in which that field occurs — each inspected document contributes at most one
to each field's total. -/
theorem c10_analyze_documents (matching extra : List (List (String × Nat)))
    (key : String) (hnd : ∀ d ∈ matching, (d.map Prod.fst).Nodup) :
    fieldTotal key (analyze_core matching) =
      (matching.take 1000).countP (fun d => decide (key ∈ d.map Prod.fst)) ∧
    (1000 ≤ matching.length →
      analyze_core (matching ++ extra) = analyze_core matching) := by
  constructor
  · rw [analyze_core, analyzeDocs, fieldTotal_analyzeDocs key _ [],
      sum_count_eq_countP key _ (fun d hd => hnd d (List.mem_of_mem_take hd))]
    simp [fieldTotal, findCounts, typeTotal]
  · intro hlen
    rw [analyze_core, analyze_core, List.take_append_of_le_length hlen]

/-- Witness for C10: two documents, field "a" present in both (with
different BSON types), field "b" in one; totals are 2 and 1. -/
theorem c10_analyze_documents_witness :
    (∀ d ∈ [[("a", 1), ("b", 2)], [("a", 7)]],
      (d.map Prod.fst).Nodup) ∧
    fieldTotal "a" (analyze_core [[("a", 1), ("b", 2)], [("a", 7)]]) =
      ([[("a", 1), ("b", 2)], [("a", 7)]].take 1000).countP
        (fun d => decide ("a" ∈ d.map Prod.fst)) ∧
    fieldTotal "a" (analyze_core [[("a", 1), ("b", 2)], [("a", 7)]]) = 2 ∧
    fieldTotal "b" (analyze_core [[("a", 1), ("b", 2)], [("a", 7)]]) = 1 :=
  ⟨by decide,
    (c10_analyze_documents [[("a", 1), ("b", 2)], [("a", 7)]] [] "a"
      (by decide)).1,
    by decide, by decide⟩
